import Mathlib

/-!
Shallow embedding of the go_go_go crawler core, translated from the Go
sources: the per-host retry controller (internal/http/headers.go), the
worker's processURL path and robots gate (internal/crawler crawl source),
the scope filter (shouldCrawl), the URL tracking-parameter normalizer
(internal/parser/parser.go) and the frontier (internal/crawler/frontier.go).
Durations are nanoseconds as natural numbers; wall-clock instants are
integers; Go `nil` errors are `Option.none`.
-/

namespace GoGoGo

/-! ## Retry controller (internal/http/headers.go) -/

/-- RetryConfig from headers.go. `BackoffFactor` is a float in Go; it is
modeled as the exact rational `factorNum / factorDen` (the default 2.0 is
`2 / 1`, for which the Go float arithmetic on durations below 2^53 ns is
exact). Durations are in nanoseconds. -/
structure RetryConfig where
  maxRetries : Nat
  initialBackoff : Nat
  maxBackoff : Nat
  factorNum : Nat
  factorDen : Nat
deriving Repr, DecidableEq

/-- DefaultRetryConfig: 3 retries, initial backoff 1 s, max backoff 30 s,
factor 2.0. -/
def DefaultRetryConfig : RetryConfig :=
  { maxRetries := 3
    initialBackoff := 1000000000
    maxBackoff := 30000000000
    factorNum := 2
    factorDen := 1 }

/-- ShouldRetry from headers.go: retry on any non-nil error, else on
status 429, 500, 502, 503 or 504. -/
def ShouldRetry (statusCode : Nat) (err : Option String) : Bool :=
  if err.isSome then
    true
  else if statusCode = 429 ∨ statusCode = 500 ∨ statusCode = 502 ∨
      statusCode = 503 ∨ statusCode = 504 then
    true
  else
    false

/-- The exponential-backoff loop inside GetBackoff: starting from `b`,
repeat `attempt` times `backoff = backoff * factor`, clamping to
`maxBackoff` and stopping as soon as the clamp triggers. The float
multiplication `time.Duration(float64(backoff) * factor)` is modeled as
exact rational multiplication with truncation. -/
def backoffIter (cfg : RetryConfig) : Nat → Nat → Nat
  | 0, b => b
  | i + 1, b =>
    let b' := b * cfg.factorNum / cfg.factorDen
    if cfg.maxBackoff < b' then cfg.maxBackoff else backoffIter cfg i b'

/-- The backoff value GetBackoff computes before jitter is added, when the
host is not inside a backoff period. -/
def computeBackoffPreJitter (cfg : RetryConfig) (attempt : Nat) : Nat :=
  backoffIter cfg attempt cfg.initialBackoff

/-- Per-host retry state from headers.go (hostRetryState); Go zero values
give fail count 0 and zero timestamps. -/
structure HostRetryState where
  consecutiveFails : Nat
  lastFailTime : Int
  backoffUntil : Int
deriving Repr, DecidableEq

/-- GetBackoff from headers.go: if `now` is before the host's
backoff-until instant, return the remaining time; otherwise the
exponential value plus jitter. The ±20% jitter (computed in Go from
`time.Now().UnixNano() % 100`) is passed in as `jitter`. -/
def GetBackoff (cfg : RetryConfig) (st : HostRetryState) (now : Int)
    (attempt : Nat) (jitter : Int) : Int :=
  if now < st.backoffUntil then st.backoffUntil - now
  else (computeBackoffPreJitter cfg attempt : Int) + jitter

/-! ## Mutex discipline of RecordFailure (internal/http/headers.go)

`RecordFailure` locks `state.mu` (with a deferred unlock) and, while
holding it, calls `rh.GetBackoff(host, ...)` for the same host, which
itself locks the same `state.mu`. Go's `sync.Mutex` is not reentrant, so
the inner Lock blocks forever. We model the sequence of operations a
single goroutine performs on that one mutex. -/

/-- A single goroutine's operation on one mutex. -/
inductive LockOp where
  | lock
  | unlock
deriving Repr, DecidableEq

/-- Run a goroutine's sequence of operations on one non-reentrant mutex.
The state is whether the goroutine holds the mutex; locking an
already-held mutex blocks the goroutine forever, modeled as `none`. -/
def runLockOps : List LockOp → Bool → Option Bool
  | [], held => some held
  | LockOp.lock :: rest, held =>
    if held then none else runLockOps rest true
  | LockOp.unlock :: rest, _ => runLockOps rest false

/-- The operations GetBackoff performs on the host's `state.mu`: lock on
entry, deferred unlock on return. -/
def getBackoffLockOps : List LockOp := [LockOp.lock, LockOp.unlock]

/-- The operations RecordFailure performs on the host's `state.mu`: it
locks, then (still holding the lock) calls GetBackoff on the same host —
which locks the same mutex — and finally its own deferred unlock. -/
def recordFailureLockOps : List LockOp :=
  LockOp.lock :: (getBackoffLockOps ++ [LockOp.unlock])

/-! ## Worker processing path (crawler crawl source, processURL) -/

/-- URLItem from internal/types/types.go. -/
structure URLItem where
  url : String
  depth : Nat
  parentURL : String
deriving Repr, DecidableEq

/-- PageResult from internal/types/types.go; numeric fields default to Go
zero values and `error` to the empty string. -/
structure PageResult where
  url : String
  depth : Nat
  statusCode : Nat := 0
  contentLength : Nat := 0
  title : String := ""
  linkCount : Nat := 0
  error : String := ""
deriving Repr, DecidableEq

/-- The outcome of the fetch phase for one dequeued URLItem, as
distinguished by processURL's branches. `success` carries the body, the
Content-Type test `Contains(contentType, "text/html")`, and the link
list and title the external extractor returned for the body. -/
inductive FetchOutcome where
  | robotsBlocked
  | reqCreateFailed (msg : String)
  | netError (msg : String)
  | nonOK (status : Nat)
  | bodyReadError (msg : String)
  | success (body : String) (isHTML : Bool) (links : List String) (title : String)
deriving Repr, DecidableEq

/-- Whether the outcome is the success branch of processURL. -/
def FetchOutcome.isSuccess : FetchOutcome → Bool
  | FetchOutcome.success _ _ _ _ => true
  | _ => false

/-- Counter side effects of one processURL call: how many results were
written to the sink, and the increments to the engine's error and
processed counters and to `frontier.MarkProcessed`. -/
structure WorkerEffects where
  errorsInc : Nat
  markProcessedCalls : Nat
  processedInc : Nat
deriving Repr, DecidableEq

/-- processURL from the crawler source, as a function of the fetch
outcome: the list of PageResults written to the sink (in order) plus the
counter effects. Every failure branch writes one result with the branch's
error string, bumps the error counter and returns; only the success
branch calls `frontier.MarkProcessed()` and bumps `processed`. -/
def processURL (item : URLItem) : FetchOutcome → List PageResult × WorkerEffects
  | FetchOutcome.robotsBlocked =>
    ([{ url := item.url, depth := item.depth, error := "blocked by robots.txt" }],
      ⟨1, 0, 0⟩)
  | FetchOutcome.reqCreateFailed msg =>
    ([{ url := item.url, depth := item.depth,
        error := "request creation failed: " ++ msg }], ⟨1, 0, 0⟩)
  | FetchOutcome.netError msg =>
    ([{ url := item.url, depth := item.depth,
        error := "request failed: " ++ msg }], ⟨1, 0, 0⟩)
  | FetchOutcome.nonOK status =>
    ([{ url := item.url, depth := item.depth, statusCode := status,
        error := "non-200 status: " ++ toString status }], ⟨1, 0, 0⟩)
  | FetchOutcome.bodyReadError msg =>
    ([{ url := item.url, depth := item.depth, statusCode := 200,
        error := "body read failed: " ++ msg }], ⟨1, 0, 0⟩)
  | FetchOutcome.success body isHTML links title =>
    ([{ url := item.url, depth := item.depth, statusCode := 200,
        contentLength := body.length,
        title := if isHTML then title else "",
        linkCount := if isHTML then links.length else 0 }], ⟨0, 1, 1⟩)

/-! ## Robots gate (crawler crawl source, isAllowedByRobots)

The robots.txt library (github.com/temoto/robotstxt) is an external
collaborator; a parsed policy is abstracted to its verdict function and
`robotstxt.FromBytes` to a parameter `parse` returning `none` on parse
error. -/

/-- A parsed robots policy, abstracted to the verdict
`TestAgent(path, "GoGoGoBot")` gives for each path. -/
structure RobotsData where
  testAgent : String → Bool

/-- What the `client.Get(robotsURL)` call produced: a network error, or a
response with its status and the result of `io.ReadAll` on its body
(`none` models a body read error). -/
inductive RobotsFetch where
  | netError
  | response (status : Nat) (bodyRead : Option String)

/-- isAllowedByRobots from the crawler source, for one origin. `cache` is
this origin's entry in the robots cache (`none` on first request), and
`fetch` is what fetching `scheme://host/robots.txt` produced on a cache
miss. Returns the verdict together with the origin's cache entry after
the call (`none` when nothing was stored). A cache hit answers from the
cached policy; on a miss, a network error or status 404 or a body read
failure or a parse failure yield allow without caching; any other status
parses the body and caches the parsed policy. -/
def isAllowedByRobots (parse : String → Option RobotsData)
    (cache : Option RobotsData) (fetch : RobotsFetch) (path : String) :
    Bool × Option RobotsData :=
  match cache with
  | some robots => (robots.testAgent path, some robots)
  | none =>
    match fetch with
    | RobotsFetch.netError => (true, none)
    | RobotsFetch.response status bodyRead =>
      if status = 404 then (true, none)
      else
        match bodyRead with
        | none => (true, none)
        | some body =>
          match parse body with
          | none => (true, none)
          | some robots => (robots.testAgent path, some robots)

/-! ## Scope filter (crawler crawl source, shouldCrawl) -/

/-- The fields of a Go `*url.URL` the scope filter reads. The standard
library parser is a collaborator; shouldCrawl is embedded as a function
of the two parse results (`none` models a parse error). -/
structure GoURL where
  scheme : String
  host : String
deriving Repr, DecidableEq

/-- Go `strings.HasSuffix`. -/
def goHasSuffix (s suffix : String) : Bool :=
  List.isSuffixOf suffix.data s.data

/-- shouldCrawl from the crawler source: reject on either parse error or
a scheme other than http/https, or when the link host neither has the
base host as a string suffix nor equals it. -/
def shouldCrawl (parsedLink parsedBase : Option GoURL) : Bool :=
  match parsedLink, parsedBase with
  | none, _ => false
  | some _, none => false
  | some l, some b =>
    if l.scheme ≠ "http" ∧ l.scheme ≠ "https" then false
    else if ¬ goHasSuffix l.host b.host = true ∧ l.host ≠ b.host then false
    else true

/-- The scope predicate exactly as the specification words it: the scheme
is http or https, and the discovered host equals the base host or ends
with "." followed by the base host. -/
def specScopePredicate (l b : GoURL) : Bool :=
  (l.scheme == "http" || l.scheme == "https") &&
    (l.host == b.host || goHasSuffix l.host ("." ++ b.host))

/-- The predicate shouldCrawl actually decides: the scheme is http or
https, and the base host is a string suffix of the link host (no "."
separator required; host equality is a special case of the suffix test). -/
def actualScopePredicate (l b : GoURL) : Bool :=
  (l.scheme == "http" || l.scheme == "https") &&
    (l.host == b.host || goHasSuffix l.host b.host)

/-! ## Tracking-parameter removal (internal/parser/parser.go)

removeTrackingParams parses the URL, runs `u.Query()` (Go
`url.ParseQuery`), deletes the ten tracking keys, and writes back
`q.Encode()`. `url.Values` is a map from key to value list built in
encounter order, and `Encode` emits the keys in sorted order with each
key's values in encounter order — i.e. a stable sort of the pair list by
key. Strings are modeled as their character lists; percent-escaping is
the identity on the unreserved characters used here, and URLs are taken
fragment-free (normalizeURL strips the fragment before calling
removeTrackingParams). -/

/-- Split a character list on a separator character; `n` separators give
`n + 1` (possibly empty) groups, like Go `strings.Split`. -/
def splitOnChar (c : Char) : List Char → List (List Char)
  | [] => [[]]
  | x :: xs =>
    if x = c then [] :: splitOnChar c xs
    else
      match splitOnChar c xs with
      | [] => [[x]]
      | g :: gs => (x :: g) :: gs

/-- Split a query segment at its first '=' into key and value, like Go
`strings.Cut(segment, "=")`; a segment without '=' is all key. -/
def splitPair : List Char → List Char × List Char
  | [] => ([], [])
  | x :: xs =>
    if x = '=' then ([], xs)
    else
      let p := splitPair xs
      (x :: p.1, p.2)

/-- Go `url.ParseQuery` on a raw query: split on '&', split each segment
at its first '=', and drop segments with an empty key. -/
def parseQuery (q : List Char) : List (List Char × List Char) :=
  (splitOnChar '&' q).filterMap fun seg =>
    let p := splitPair seg
    if p.1 = [] then none else some p

/-- Byte-wise lexicographic order on keys, as Go `sort.Strings` uses. -/
def keyLe : List Char → List Char → Bool
  | [], _ => true
  | _ :: _, [] => false
  | x :: xs, y :: ys =>
    if x = y then keyLe xs ys else decide (x < y)

/-- Insert a pair into a key-sorted pair list, before the first entry
whose key is ≥ its own (so earlier pairs with an equal key stay first). -/
def insertByKey (p : List Char × List Char) :
    List (List Char × List Char) → List (List Char × List Char)
  | [] => [p]
  | q :: rest =>
    if keyLe p.1 q.1 then p :: q :: rest else q :: insertByKey p rest

/-- Stable sort of a pair list by key: the grouping-by-sorted-key that
`url.Values.Encode` performs. -/
def sortPairsByKey : List (List Char × List Char) → List (List Char × List Char)
  | [] => []
  | p :: rest => insertByKey p (sortPairsByKey rest)

/-- Render a pair list back to a raw query, as `Encode` does:
`key=value` segments joined by '&'. -/
def encodePairs : List (List Char × List Char) → List Char
  | [] => []
  | [p] => p.1 ++ '=' :: p.2
  | p :: q :: rest => p.1 ++ '=' :: p.2 ++ '&' :: encodePairs (q :: rest)

/-- The ten tracking query parameters removed, exactly as listed in
parser.go (case-sensitive keys). -/
def trackingParams : List String :=
  ["utm_source", "utm_medium", "utm_campaign", "utm_term", "utm_content",
    "fbclid", "gclid", "msclkid", "mc_cid", "mc_eid"]

/-- Whether a parsed query pair survives the ten `q.Del(param)` calls. -/
def keepPair (p : List Char × List Char) : Bool :=
  !((trackingParams.map String.data).contains p.1)

/-- Split a URL string at its first '?' into the part before it and the
raw query after it (`none` when the URL has no query). -/
def splitAtQuery : List Char → List Char × Option (List Char)
  | [] => ([], none)
  | c :: cs =>
    if c = '?' then ([], some cs)
    else
      let p := splitAtQuery cs
      (c :: p.1, p.2)

/-- removeTrackingParams from parser.go: parse the query, delete the ten
tracking keys, re-encode (sorted by key), and serialize; Go's
`url.URL.String` omits the '?' when the re-encoded query is empty, unless
the original URL ended in a bare '?' (ForceQuery). -/
def removeTrackingParams (urlStr : String) : String :=
  let p := splitAtQuery urlStr.data
  match p.2 with
  | none => String.mk p.1
  | some q =>
    let kept := (parseQuery q).filter keepPair
    let enc := encodePairs (sortPairsByKey kept)
    if enc = [] then
      if q = [] then String.mk (p.1 ++ ['?']) else String.mk p.1
    else String.mk (p.1 ++ '?' :: enc)

/-! ## Frontier (internal/crawler/frontier.go)

The bloom filter is modeled as an exact membership set over URL strings
(the code's `seen.Test` / `seen.Add` pair; a bloom false positive only
makes `Test` answer `true` earlier, which is the case the theorems about
a positive `Test` cover). `url.Parse(item.URL)` followed by `.Host` is
the standard-library collaborator, passed in as `parseHost`. Timestamps
are integers in milliseconds; the Go zero `time.Time` is far in the past
relative to any real `now`, modeled by the initial `lastAccess = 0`. -/

/-- hostQueue from frontier.go. -/
structure HostQueue where
  urls : List URLItem
  lastAccess : Int
  politenessMs : Nat
deriving Repr, DecidableEq

/-- Frontier from frontier.go: queues per host (the Go map, as an
association list keyed by host), the membership set, the two counters,
and the round-robin host ring with its cursor. -/
structure Frontier where
  queues : List (String × HostQueue)
  seen : List String
  discovered : Nat
  processed : Nat
  hosts : List String
  hostIndex : Nat
deriving Repr, DecidableEq

/-- NewFrontier: everything empty, counters zero. -/
def NewFrontier : Frontier :=
  { queues := [], seen := [], discovered := 0, processed := 0,
    hosts := [], hostIndex := 0 }

/-- Look a host's queue up in the map. -/
def lookupQueue : List (String × HostQueue) → String → Option HostQueue
  | [], _ => none
  | (k, q) :: rest, h => if k = h then some q else lookupQueue rest h

/-- Store a host's queue in the map (insert at the end when absent). -/
def updateQueue : List (String × HostQueue) → String → HostQueue →
    List (String × HostQueue)
  | [], h, q => [(h, q)]
  | (k, q0) :: rest, h, q =>
    if k = h then (k, q) :: rest else (k, q0) :: updateQueue rest h q

/-- Frontier.Add: if the membership set already reports the URL, return
false with no further effect. Otherwise record it and bump `discovered`;
then parse the host (failure returns false — the URL stays counted as
seen), get-or-create the host queue (appending the host to the ring when
new) and append the item to its FIFO. -/
def Frontier.add (parseHost : String → Option String) (f : Frontier)
    (item : URLItem) : Frontier × Bool :=
  if f.seen.contains item.url then (f, false)
  else
    let f1 := { f with seen := item.url :: f.seen, discovered := f.discovered + 1 }
    match parseHost item.url with
    | none => (f1, false)
    | some host =>
      match lookupQueue f1.queues host with
      | some q =>
        ({ f1 with
            queues := updateQueue f1.queues host { q with urls := q.urls ++ [item] } },
          true)
      | none =>
        ({ f1 with
            queues := updateQueue f1.queues host
              { urls := [item], lastAccess := 0, politenessMs := 100 },
            hosts := f1.hosts ++ [host] },
          true)

/-- The loop body of Frontier.Next, with the remaining iteration count as
fuel (the Go loop runs at most `len(f.hosts)` times). Each iteration
advances the cursor, skips the host when its politeness delay has not
elapsed or its FIFO is empty, and otherwise pops the FIFO head, stamps
`lastAccess = now` and returns. The returned frontier carries the cursor
movement even when nothing was found. -/
def nextLoop (now : Int) : Nat → Frontier → Frontier × Option (String × URLItem)
  | 0, f => (f, none)
  | i + 1, f =>
    let idx := (f.hostIndex + 1) % f.hosts.length
    let f' := { f with hostIndex := idx }
    match f'.hosts.get? idx with
    | none => (f', none)
    | some host =>
      match lookupQueue f'.queues host with
      | none => nextLoop now i f'
      | some q =>
        if now - q.lastAccess < (q.politenessMs : Int) then nextLoop now i f'
        else
          match q.urls with
          | [] => nextLoop now i f'
          | item :: rest =>
            ({ f' with
                queues := updateQueue f'.queues host
                  { q with urls := rest, lastAccess := now } },
              some (host, item))

/-- Frontier.Next at instant `now`: one round-robin revolution at most. -/
def Frontier.next (f : Frontier) (now : Int) : Frontier × Option (String × URLItem) :=
  nextLoop now f.hosts.length f

/-- Frontier.MarkProcessed. -/
def Frontier.markProcessed (f : Frontier) : Frontier :=
  { f with processed := f.processed + 1 }

/-! ## Interleavings of Add and Next, and the engine-side counters -/

/-- One frontier operation of an interleaved history: an Add of an item,
or a Next at some instant. -/
inductive CrawlOp where
  | add (item : URLItem)
  | next (now : Int)
deriving Repr, DecidableEq

/-- Observable event of a history: a successful Add appended an item to a
host's FIFO, or a Next returned an item popped from a host's FIFO. -/
inductive CrawlEv where
  | added (host : String) (item : URLItem)
  | dequeued (host : String) (item : URLItem)
deriving Repr, DecidableEq

/-- Run a history of frontier operations, collecting the event log. -/
def runFrontier (parseHost : String → Option String) :
    List CrawlOp → Frontier → Frontier × List CrawlEv
  | [], f => (f, [])
  | CrawlOp.add item :: rest, f =>
    let r := f.add parseHost item
    let evs :=
      match r.2, parseHost item.url with
      | true, some h => [CrawlEv.added h item]
      | _, _ => []
    let r' := runFrontier parseHost rest r.1
    (r'.1, evs ++ r'.2)
  | CrawlOp.next now :: rest, f =>
    let r := f.next now
    let evs :=
      match r.2 with
      | some (h, it) => [CrawlEv.dequeued h it]
      | none => []
    let r' := runFrontier parseHost rest r.1
    (r'.1, evs ++ r'.2)

/-- The items a host's queue holds in a frontier state. -/
def queueOf (f : Frontier) (h : String) : List URLItem :=
  match lookupQueue f.queues h with
  | some q => q.urls
  | none => []

/-- The items successfully added to host `H`, in log order. -/
def addsTo (H : String) : List CrawlEv → List URLItem
  | [] => []
  | CrawlEv.added h it :: rest =>
    if h = H then it :: addsTo H rest else addsTo H rest
  | CrawlEv.dequeued _ _ :: rest => addsTo H rest

/-- The items Next returned from host `H`, in log order. -/
def dequeuesFrom (H : String) : List CrawlEv → List URLItem
  | [] => []
  | CrawlEv.dequeued h it :: rest =>
    if h = H then it :: dequeuesFrom H rest else dequeuesFrom H rest
  | CrawlEv.added _ _ :: rest => dequeuesFrom H rest

/-- The engine-side counters of the crawler source that claim C6
relates: `seedsAdded` counts seed Adds that returned true (the count the
seeding loop accumulates, plus the start URL), and `engineDiscovered`
counts the worker-side `c.discovered.Add(1)` calls, which processURL
performs once per in-scope link whether or not the frontier Add
succeeded. -/
structure EngineCounters where
  seedsAdded : Nat
  engineDiscovered : Nat
deriving Repr, DecidableEq

/-- An Add call as the engine issues it: from seeding (depth 0) or from a
worker queuing an in-scope extracted link. -/
inductive AddEvent where
  | seed (item : URLItem)
  | workerLink (item : URLItem)
deriving Repr, DecidableEq

/-- Run the engine's Add calls over the frontier, accumulating the
engine-side counters exactly as the source does: a seed bumps
`seedsAdded` only when Add returns true; a worker link bumps
`engineDiscovered` unconditionally after calling Add. -/
def runAdds (parseHost : String → Option String) :
    List AddEvent → Frontier → EngineCounters → Frontier × EngineCounters
  | [], f, c => (f, c)
  | AddEvent.seed it :: rest, f, c =>
    let r := f.add parseHost it
    runAdds parseHost rest r.1
      { c with seedsAdded := c.seedsAdded + (if r.2 then 1 else 0) }
  | AddEvent.workerLink it :: rest, f, c =>
    let r := f.add parseHost it
    runAdds parseHost rest r.1
      { c with engineDiscovered := c.engineDiscovered + 1 }

/-- The link loop at the end of processURL's success branch: each
extracted link is Added to the frontier (with depth + 1 and the current
URL as parent) only when shouldCrawl accepts it against the base URL. -/
def addLinksLoop (parseURL : String → Option GoURL)
    (parseHost : String → Option String) (item : URLItem)
    (links : List String) (f : Frontier) : Frontier :=
  links.foldl
    (fun acc link =>
      if shouldCrawl (parseURL link) (parseURL item.url) then
        (acc.add parseHost { url := link, depth := item.depth + 1, parentURL := item.url }).1
      else acc)
    f

/-- The URLItem an engine Add call carries. -/
def AddEvent.item : AddEvent → URLItem
  | AddEvent.seed it => it
  | AddEvent.workerLink it => it

/-- The frontier/event-log invariant behind per-host FIFO: for every
host, the items already dequeued from it followed by the items still
pending in its queue are exactly the items successfully added to it, in
order. -/
def FrontierInv (f : Frontier) (evs : List CrawlEv) : Prop :=
  ∀ H, dequeuesFrom H evs ++ queueOf f H = addsTo H evs

/-- A parsed query pair whose encoding re-parses to itself: nonempty key,
no '&' in key or value, no '=' in the key. -/
def WellFormedPair (p : List Char × List Char) : Prop :=
  p.1 ≠ [] ∧ '&' ∉ p.1 ∧ '=' ∉ p.1 ∧ '&' ∉ p.2

/-- A robots parse function for concrete instances: parses exactly the
standard disallow-all robots.txt body into a deny-everything policy. -/
def parseDisallowAll : String → Option RobotsData := fun body =>
  if body = "User-agent: *\nDisallow: /" then
    some { testAgent := fun _ => false }
  else none

/-! ## Theorems -/

/-- Claim C9 (confirmed): ShouldRetry(status, error) returns true iff the
error is non-nil or the status is one of 429, 500, 502, 503, 504; in
particular every 4xx status other than 429 with a nil error yields
false. -/
theorem shouldRetry_iff (s : Nat) (e : Option String) :
    (ShouldRetry s e = true ↔
      e ≠ none ∨ s = 429 ∨ s = 500 ∨ s = 502 ∨ s = 503 ∨ s = 504) ∧
    (400 ≤ s → s < 500 → s ≠ 429 → ShouldRetry s none = false) := by
  constructor
  · cases e with
    | none => simp [ShouldRetry]
    | some msg => simp [ShouldRetry]
  · intro h1 h2 h3
    simp only [ShouldRetry, Option.isSome_none, Bool.false_eq_true, if_false]
    rw [if_neg]
    omega

/-- Witness for shouldRetry_iff at status 404 with a nil error. -/
theorem shouldRetry_iff_witness :
    (400 ≤ 404 ∧ 404 < 500 ∧ 404 ≠ 429) ∧ ShouldRetry 404 none = false :=
  ⟨by decide, (shouldRetry_iff 404 none).2 (by decide) (by decide) (by decide)⟩

/-- Claim C2 (code bug): RecordFailure locks the per-host `state.mu` and,
still holding it, calls GetBackoff for the same host, which locks the
same non-reentrant mutex again — so the single goroutine's lock trace
blocks forever and RecordFailure never returns. -/
theorem recordFailure_self_deadlock :
    runLockOps recordFailureLockOps false = none ∧
    runLockOps getBackoffLockOps false = some false := by decide

/-- Counterexample for claim C1: on the robots-blocked outcome,
processURL writes its one PageResult and bumps the error counter but
performs zero frontier.MarkProcessed calls, not one. -/
theorem processURL_robots_no_markProcessed :
    ¬ ((processURL { url := "http://t/a", depth := 0, parentURL := "" }
        FetchOutcome.robotsBlocked).2.markProcessedCalls = 1) := by decide

/-- Claim C1 (amended): every outcome of processURL writes exactly one
PageResult to the sink; every failure outcome bumps the error counter
and the success outcome does not; frontier.MarkProcessed (and the
processed counter) is bumped on the success outcome only. -/
theorem processURL_one_result (item : URLItem) (o : FetchOutcome) :
    (processURL item o).1.length = 1 ∧
    (processURL item o).2.errorsInc = (if o.isSuccess then 0 else 1) ∧
    (processURL item o).2.markProcessedCalls = (if o.isSuccess then 1 else 0) ∧
    (processURL item o).2.processedInc = (if o.isSuccess then 1 else 0) := by
  cases o <;> simp [processURL, FetchOutcome.isSuccess]

/-- Counterexample for claim C4: on a 5xx status (500) whose body parses
as a disallow-all policy, the robots gate does not return allow — it
returns the parsed verdict (deny) and moreover caches the parsed policy,
whereas the claim requires allow with no caching on 5xx. -/
theorem robots_5xx_denies_and_caches :
    (isAllowedByRobots parseDisallowAll none
        (RobotsFetch.response 500 (some "User-agent: *\nDisallow: /")) "/a").1
      = false ∧
    (isAllowedByRobots parseDisallowAll none
        (RobotsFetch.response 500 (some "User-agent: *\nDisallow: /")) "/a").2.isSome
      = true := by
  constructor
  · rfl
  · rfl

/-- Claim C4 (amended): on first request to an origin the robots gate
returns allow without caching on network failure, on status 404, on a
body read failure and on a parse failure; on every other status (2xx,
other 4xx and 5xx alike) it parses the body, caches the parsed policy
and returns that policy's verdict. -/
theorem robots_gate_cases (parse : String → Option RobotsData) (p : String) :
    (isAllowedByRobots parse none RobotsFetch.netError p = (true, none)) ∧
    (∀ b, isAllowedByRobots parse none (RobotsFetch.response 404 b) p = (true, none)) ∧
    (∀ s, isAllowedByRobots parse none (RobotsFetch.response s none) p = (true, none)) ∧
    (∀ s body, parse body = none →
      isAllowedByRobots parse none (RobotsFetch.response s (some body)) p = (true, none)) ∧
    (∀ s body r, s ≠ 404 → parse body = some r →
      isAllowedByRobots parse none (RobotsFetch.response s (some body)) p
        = (r.testAgent p, some r)) := by
  refine ⟨rfl, ?_, ?_, ?_, ?_⟩
  · intro b
    cases b <;> simp [isAllowedByRobots]
  · intro s
    by_cases h : s = 404 <;> simp [isAllowedByRobots, h]
  · intro s body hparse
    by_cases h : s = 404 <;> simp [isAllowedByRobots, h, hparse]
  · intro s body r hs hparse
    simp [isAllowedByRobots, hs, hparse]

/-- Witness for robots_gate_cases: a 500 response with a parseable
disallow-all body is cached and its verdict returned. -/
theorem robots_gate_cases_witness :
    ((500 : Nat) ≠ 404 ∧
      parseDisallowAll "User-agent: *\nDisallow: /"
        = some { testAgent := fun _ => false }) ∧
    isAllowedByRobots parseDisallowAll none
        (RobotsFetch.response 500 (some "User-agent: *\nDisallow: /")) "/a"
      = ((fun _ => false : String → Bool) "/a",
          some { testAgent := fun _ => false }) :=
  ⟨⟨by decide, by rfl⟩,
    (robots_gate_cases parseDisallowAll "/a").2.2.2.2 500
      "User-agent: *\nDisallow: /" { testAgent := fun _ => false }
      (by decide) (by rfl)⟩

/-- Counterexample for claim C3: the scope filter accepts a link whose
host merely ends with the base host as a raw string suffix, without the
"." separator the claim requires — host "notexample.com" against base
host "example.com". -/
theorem scope_suffix_counterexample :
    shouldCrawl (some { scheme := "http", host := "notexample.com" })
        (some { scheme := "http", host := "example.com" }) = true ∧
    specScopePredicate { scheme := "http", host := "notexample.com" }
        { scheme := "http", host := "example.com" } = false := by decide

/-- The foldl over extracted links only changes the frontier at links the
scope filter accepts: dropping the rejected links first gives the same
frontier. -/
theorem addLinksLoop_filter (parseURL : String → Option GoURL)
    (parseHost : String → Option String) (item : URLItem) :
    ∀ (links : List String) (f : Frontier),
      addLinksLoop parseURL parseHost item links f =
        addLinksLoop parseURL parseHost item
          (links.filter fun s => shouldCrawl (parseURL s) (parseURL item.url)) f := by
  intro links
  induction links with
  | nil => intro f; rfl
  | cons s rest ih =>
    intro f
    by_cases h : shouldCrawl (parseURL s) (parseURL item.url) = true
    · simp only [addLinksLoop, List.foldl_cons, List.filter_cons, h, if_pos]
      exact ih _
    · have hb : shouldCrawl (parseURL s) (parseURL item.url) = false := by
        revert h; cases shouldCrawl (parseURL s) (parseURL item.url) <;> simp
      simp only [addLinksLoop, List.foldl_cons, List.filter_cons, hb]
      simp only [Bool.false_eq_true, if_false]
      exact ih f

/-- Claim C3 (amended): the scope filter accepts a parsed link against a
parsed base iff the scheme is http or https and the link host equals the
base host or has it as a raw string suffix (no "." separator required);
a parse failure on either side rejects; and the worker's link loop never
Adds a rejected link to the frontier (the loop equals the loop over the
accepted links only). -/
theorem scope_filter_characterization (l b : GoURL)
    (parseURL : String → Option GoURL) (parseHost : String → Option String)
    (item : URLItem) (links : List String) (f : Frontier) :
    shouldCrawl (some l) (some b) = actualScopePredicate l b ∧
    shouldCrawl none (some b) = false ∧
    shouldCrawl (some l) none = false ∧
    addLinksLoop parseURL parseHost item links f =
      addLinksLoop parseURL parseHost item
        (links.filter fun s => shouldCrawl (parseURL s) (parseURL item.url)) f := by
  refine ⟨?_, rfl, rfl, addLinksLoop_filter parseURL parseHost item links f⟩
  by_cases h1 : l.scheme = "http" <;>
    by_cases h2 : l.scheme = "https" <;>
      by_cases h3 : goHasSuffix l.host b.host = true <;>
        by_cases h4 : l.host = b.host <;>
          simp [shouldCrawl, actualScopePredicate, h1, h2, h3, h4]

/-- The backoff loop with factor 2 computes the clamped power formula. -/
theorem backoffIter_two (cfg : RetryConfig) (hn : cfg.factorNum = 2)
    (hd : cfg.factorDen = 1) :
    ∀ (a b : Nat), 1 ≤ b → b ≤ cfg.maxBackoff →
      backoffIter cfg a b = min cfg.maxBackoff (b * 2 ^ a) := by
  intro a
  induction a with
  | zero =>
    intro b hb hbM
    simp [backoffIter, Nat.min_eq_right hbM]
  | succ a ih =>
    intro b hb hbM
    simp only [backoffIter, hn, hd, Nat.div_one]
    by_cases h : cfg.maxBackoff < b * 2
    · rw [if_pos h]
      have hle : cfg.maxBackoff ≤ b * 2 ^ (a + 1) := by
        have h2 : (2 : Nat) ≤ 2 ^ (a + 1) := by
          calc (2 : Nat) = 2 ^ 1 := by norm_num
          _ ≤ 2 ^ (a + 1) := Nat.pow_le_pow_right (by norm_num) (by omega)
        calc cfg.maxBackoff ≤ b * 2 := Nat.le_of_lt h
        _ ≤ b * 2 ^ (a + 1) := Nat.mul_le_mul_left b h2
      exact (Nat.min_eq_left hle).symm
    · rw [if_neg h]
      push_neg at h
      rw [ih (b * 2) (by omega) h]
      congr 1
      rw [pow_succ]
      ring

/-- Claim C10 (confirmed): with the default configuration (initial 1 s,
factor 2.0, max 30 s), when the host is not inside a backoff period,
GetBackoff's value before jitter is min(max_backoff, initial · 2^attempt)
nanoseconds, and that pre-jitter value is non-decreasing in the attempt
count (saturating at max_backoff). -/
theorem getBackoff_formula (st : HostRetryState) (now jitter : Int)
    (a a' : Nat) (hnb : ¬ now < st.backoffUntil) (haa : a ≤ a') :
    GetBackoff DefaultRetryConfig st now a jitter =
      ((min 30000000000 (1000000000 * 2 ^ a) : Nat) : Int) + jitter ∧
    computeBackoffPreJitter DefaultRetryConfig a ≤
      computeBackoffPreJitter DefaultRetryConfig a' := by
  have key : ∀ n, computeBackoffPreJitter DefaultRetryConfig n =
      min 30000000000 (1000000000 * 2 ^ n) := fun n =>
    backoffIter_two DefaultRetryConfig rfl rfl n 1000000000
      (by norm_num) (by norm_num [DefaultRetryConfig])
  constructor
  · unfold GetBackoff
    rw [if_neg hnb, key]
  · rw [key, key]
    exact min_le_min (le_refl _)
      (Nat.mul_le_mul_left _ (Nat.pow_le_pow_right (by norm_num) haa))

/-- Witness for getBackoff_formula: fresh host state at instant 5,
attempt 2 versus attempt 5, jitter 7. -/
theorem getBackoff_formula_witness :
    (¬ (5 : Int) < 0 ∧ 2 ≤ 5) ∧
    (GetBackoff DefaultRetryConfig
        { consecutiveFails := 0, lastFailTime := 0, backoffUntil := 0 } 5 2 7 =
      ((min 30000000000 (1000000000 * 2 ^ 2) : Nat) : Int) + 7 ∧
    computeBackoffPreJitter DefaultRetryConfig 2 ≤
      computeBackoffPreJitter DefaultRetryConfig 5) :=
  ⟨by decide,
    getBackoff_formula
      { consecutiveFails := 0, lastFailTime := 0, backoffUntil := 0 }
      5 7 2 5 (by decide) (by decide)⟩

/-- Claim C7 (confirmed): an Add whose URL the membership set reports as
present returns false and leaves the whole frontier — every host queue,
the host ring, the cursor, the set and both counters — unchanged. -/
theorem add_seen_noop (parseHost : String → Option String) (f : Frontier)
    (item : URLItem) (h : f.seen.contains item.url = true) :
    f.add parseHost item = (f, false) := by
  unfold Frontier.add
  rw [if_pos h]

/-- Witness for add_seen_noop: a frontier that has already seen "u". -/
theorem add_seen_noop_witness :
    (List.contains ["u"] "u" = true) ∧
    Frontier.add (fun _ => some "t")
        { queues := [], seen := ["u"], discovered := 1, processed := 0,
          hosts := [], hostIndex := 0 }
        { url := "u", depth := 0, parentURL := "" } =
      ({ queues := [], seen := ["u"], discovered := 1, processed := 0,
          hosts := [], hostIndex := 0 }, false) :=
  ⟨by decide,
    add_seen_noop (fun _ => some "t")
      { queues := [], seen := ["u"], discovered := 1, processed := 0,
        hosts := [], hostIndex := 0 }
      { url := "u", depth := 0, parentURL := "" } (by decide)⟩

/-- Storing a queue under key `h` changes exactly the binding of `h`. -/
theorem lookupQueue_update (qs : List (String × HostQueue)) (h : String)
    (q : HostQueue) (h' : String) :
    lookupQueue (updateQueue qs h q) h' =
      if h' = h then some q else lookupQueue qs h' := by
  induction qs with
  | nil =>
    by_cases e : h' = h
    · subst e; simp [updateQueue, lookupQueue]
    · have e2 : ¬ h = h' := fun hh => e hh.symm
      simp [updateQueue, lookupQueue, e, e2]
  | cons kv rest ih =>
    obtain ⟨k, q0⟩ := kv
    by_cases ek : k = h
    · subst ek
      by_cases e : h' = k
      · subst e; simp [updateQueue, lookupQueue]
      · have e2 : ¬ k = h' := fun hh => e hh.symm
        simp [updateQueue, lookupQueue, e, e2]
    · by_cases e : h' = h
      · subst e
        have e3 : ¬ k = h' := fun hh => ek hh
        simp [updateQueue, lookupQueue, ek, e3, ih]
      · by_cases e3 : k = h'
        · subst e3
          simp [updateQueue, lookupQueue, ek, e]
        · simp [updateQueue, lookupQueue, ek, e, e3, ih]

/-- Effect of Frontier.Add on one host's queue contents: the item is
appended to the queue of its own host exactly when Add returns true, and
every other queue is untouched. -/
theorem queueOf_add (parseHost : String → Option String) (f : Frontier)
    (item : URLItem) (H : String) :
    queueOf (f.add parseHost item).1 H =
      (if (f.add parseHost item).2 = true ∧ parseHost item.url = some H
       then queueOf f H ++ [item] else queueOf f H) := by
  unfold Frontier.add
  by_cases hs : f.seen.contains item.url = true
  · have hs' : item.url ∈ f.seen := by simpa using hs
    simp [hs, hs']
  · rw [if_neg hs]
    cases hp : parseHost item.url with
    | none => simp [queueOf]
    | some host =>
      cases hq : lookupQueue f.queues host with
      | some q =>
        simp only [hq]
        unfold queueOf
        simp only [lookupQueue_update]
        by_cases e : H = host
        · subst e; simp [hq]
        · have e2 : ¬ (some host = some H) := by
            intro hh
            exact e (Option.some.inj hh).symm
          simp [e, e2]
      | none =>
        simp only [hq]
        unfold queueOf
        simp only [lookupQueue_update]
        by_cases e : H = host
        · subst e; simp [hq]
        · have e2 : ¬ (some host = some H) := by
            intro hh
            exact e (Option.some.inj hh).symm
          simp [e, e2]

/-- Effect of the Next loop on queue contents: when it returns an item it
has popped it from the head of that host's queue and touched no other
queue; when it returns none every queue is unchanged. -/
theorem nextLoop_pop (now : Int) :
    ∀ (fuel : Nat) (f : Frontier),
      (∀ h it, (nextLoop now fuel f).2 = some (h, it) →
        queueOf f h = it :: queueOf (nextLoop now fuel f).1 h ∧
        ∀ H, H ≠ h → queueOf (nextLoop now fuel f).1 H = queueOf f H) ∧
      ((nextLoop now fuel f).2 = none →
        ∀ H, queueOf (nextLoop now fuel f).1 H = queueOf f H) := by
  intro fuel
  induction fuel with
  | zero =>
    intro f
    refine ⟨?_, ?_⟩
    · intro h it hcontra
      simp [nextLoop] at hcontra
    · intro _ H
      rfl
  | succ i ih =>
    intro f
    rw [nextLoop]
    cases hget : f.hosts.get? ((f.hostIndex + 1) % f.hosts.length) with
    | none =>
      simp only [hget]
      refine ⟨?_, ?_⟩
      · intro h it hcontra
        simp at hcontra
      · intro _ H
        rfl
    | some host =>
      simp only [hget]
      cases hq : lookupQueue f.queues host with
      | none =>
        simp only [hq]
        exact ih _
      | some q =>
        simp only [hq]
        by_cases hpol : now - q.lastAccess < (q.politenessMs : Int)
        · rw [if_pos hpol]
          exact ih _
        · rw [if_neg hpol]
          cases hurls : q.urls with
          | nil =>
            exact ih _
          | cons item rest =>
            refine ⟨?_, ?_⟩
            · intro h' it' hres
              simp only [Option.some.injEq, Prod.mk.injEq] at hres
              obtain ⟨hh, hit⟩ := hres
              subst hh
              subst hit
              refine ⟨?_, ?_⟩
              · unfold queueOf
                simp [lookupQueue_update, hq, hurls]
              · intro H hH
                unfold queueOf
                simp [lookupQueue_update, hH]
            · intro hcontra
              simp at hcontra

/-- `addsTo` distributes over log concatenation. -/
theorem addsTo_append (H : String) (a b : List CrawlEv) :
    addsTo H (a ++ b) = addsTo H a ++ addsTo H b := by
  induction a with
  | nil => rfl
  | cons e rest ih =>
    cases e with
    | added h it =>
      by_cases hh : h = H <;> simp [addsTo, hh, ih]
    | dequeued h it =>
      simp [addsTo, ih]

/-- `dequeuesFrom` distributes over log concatenation. -/
theorem dequeuesFrom_append (H : String) (a b : List CrawlEv) :
    dequeuesFrom H (a ++ b) = dequeuesFrom H a ++ dequeuesFrom H b := by
  induction a with
  | nil => rfl
  | cons e rest ih =>
    cases e with
    | added h it =>
      simp [dequeuesFrom, ih]
    | dequeued h it =>
      by_cases hh : h = H <;> simp [dequeuesFrom, hh, ih]

/-- Running any history preserves the frontier/event-log invariant. -/
theorem runFrontier_inv (parseHost : String → Option String) :
    ∀ (ops : List CrawlOp) (f : Frontier) (evs0 : List CrawlEv),
      FrontierInv f evs0 →
      FrontierInv (runFrontier parseHost ops f).1
        (evs0 ++ (runFrontier parseHost ops f).2) := by
  intro ops
  induction ops with
  | nil =>
    intro f evs0 hInv
    simpa [runFrontier] using hInv
  | cons op rest ih =>
    intro f evs0 hInv
    cases op with
    | add item =>
      simp only [runFrontier]
      have hstep : FrontierInv (f.add parseHost item).1
          (evs0 ++ (match (f.add parseHost item).2, parseHost item.url with
            | true, some h => [CrawlEv.added h item]
            | _, _ => [])) := by
        intro H
        have hq := queueOf_add parseHost f item H
        cases hok : (f.add parseHost item).2 with
        | false =>
          have hq' : queueOf (f.add parseHost item).1 H = queueOf f H := by
            simpa [hok] using hq
          cases hp : parseHost item.url with
          | none => simpa [hok, hp, hq'] using hInv H
          | some h => simpa [hok, hp, hq'] using hInv H
        | true =>
          cases hp : parseHost item.url with
          | none =>
            have hq' : queueOf (f.add parseHost item).1 H = queueOf f H := by
              simpa [hok, hp] using hq
            simpa [hok, hp, hq'] using hInv H
          | some h =>
            simp only [hok, hp]
            by_cases hh : h = H
            · subst hh
              have hq' : queueOf (f.add parseHost item).1 h = queueOf f h ++ [item] := by
                simpa [hok, hp] using hq
              rw [dequeuesFrom_append, addsTo_append]
              have e1 : dequeuesFrom h [CrawlEv.added h item] = [] := by
                simp [dequeuesFrom]
              have e2 : addsTo h [CrawlEv.added h item] = [item] := by
                simp [addsTo]
              rw [e1, e2, hq', List.append_nil]
              have hbase := hInv h
              rw [← hbase]
              simp
            · have hq' : queueOf (f.add parseHost item).1 H = queueOf f H := by
                simpa [hok, hp, hh] using hq
              rw [dequeuesFrom_append, addsTo_append]
              have e1 : dequeuesFrom H [CrawlEv.added h item] = [] := by
                simp [dequeuesFrom]
              have e2 : addsTo H [CrawlEv.added h item] = [] := by
                simp [addsTo, hh]
              rw [e1, e2, hq']
              simpa using hInv H
      have := ih (f.add parseHost item).1 _ hstep
      rw [List.append_assoc] at this
      exact this
    | next now =>
      simp only [runFrontier]
      have hpop := nextLoop_pop now f.hosts.length f
      have hstep : FrontierInv (f.next now).1
          (evs0 ++ (match (f.next now).2 with
            | some (h, it) => [CrawlEv.dequeued h it]
            | none => [])) := by
        intro H
        cases hres : (f.next now).2 with
        | none =>
          have hqe := hpop.2 hres H
          simp only [hres]
          simpa [Frontier.next, hqe] using hInv H
        | some pair =>
          obtain ⟨h, it⟩ := pair
          have hres' : (nextLoop now f.hosts.length f).2 = some (h, it) := hres
          have hpo := hpop.1 h it hres'
          simp only [hres]
          by_cases hh : h = H
          · subst hh
            rw [dequeuesFrom_append, addsTo_append]
            have e1 : dequeuesFrom h [CrawlEv.dequeued h it] = [it] := by
              simp [dequeuesFrom]
            have e2 : addsTo h [CrawlEv.dequeued h it] = [] := by
              simp [addsTo]
            rw [e1, e2, List.append_nil]
            have hq : queueOf f h = it :: queueOf (f.next now).1 h := hpo.1
            have hbase := hInv h
            rw [← hbase, hq]
            simp
          · rw [dequeuesFrom_append, addsTo_append]
            have e1 : dequeuesFrom H [CrawlEv.dequeued h it] = [] := by
              simp [dequeuesFrom, hh]
            have e2 : addsTo H [CrawlEv.dequeued h it] = [] := by
              simp [addsTo]
            rw [e1, e2, List.append_nil]
            have hqe : queueOf (f.next now).1 H = queueOf f H :=
              hpo.2 H (fun hc => hh hc.symm)
            rw [hqe]
            simpa using hInv H
      have := ih (f.next now).1 _ hstep
      rw [List.append_assoc] at this
      exact this

/-- Claim C8 (confirmed): over any interleaving of Add and Next
operations run from a fresh frontier, the items Next returned from a
given host are exactly the first k items successfully added to that
host, in the same order (per-host FIFO). -/
theorem perHostFIFO (parseHost : String → Option String)
    (ops : List CrawlOp) (H : String) :
    dequeuesFrom H (runFrontier parseHost ops NewFrontier).2 =
      (addsTo H (runFrontier parseHost ops NewFrontier).2).take
        (dequeuesFrom H (runFrontier parseHost ops NewFrontier).2).length := by
  have h0 : FrontierInv NewFrontier [] := by
    intro H
    simp [dequeuesFrom, addsTo, queueOf, NewFrontier, lookupQueue]
  have h := runFrontier_inv parseHost ops NewFrontier [] h0 H
  simp only [List.nil_append] at h
  rw [← h]
  rw [List.take_left]

/-- Add bumps `discovered` exactly when it returns true, provided the
URL's host parses (an unseen URL whose host fails to parse bumps
`discovered` while returning false). -/
theorem add_discovered (parseHost : String → Option String) (f : Frontier)
    (item : URLItem) (hp : (parseHost item.url).isSome = true) :
    (f.add parseHost item).1.discovered =
      f.discovered + (if (f.add parseHost item).2 = true then 1 else 0) := by
  unfold Frontier.add
  by_cases hs : f.seen.contains item.url = true
  · have hs' : item.url ∈ f.seen := by simpa using hs
    simp [hs, hs']
  · rw [if_neg hs]
    cases hpp : parseHost item.url with
    | none =>
      rw [hpp] at hp
      simp at hp
    | some host =>
      cases hq : lookupQueue f.queues host with
      | some q => simp [hq]
      | none => simp [hq]

/-- Unfolding equation of runAdds on a seed event. -/
theorem runAdds_cons_seed (parseHost : String → Option String) (it : URLItem)
    (rest : List AddEvent) (f : Frontier) (c : EngineCounters) :
    runAdds parseHost (AddEvent.seed it :: rest) f c =
      runAdds parseHost rest (f.add parseHost it).1
        ⟨c.seedsAdded + (if (f.add parseHost it).2 = true then 1 else 0),
          c.engineDiscovered⟩ := rfl

/-- Unfolding equation of runAdds on a worker-link event. -/
theorem runAdds_cons_worker (parseHost : String → Option String) (it : URLItem)
    (rest : List AddEvent) (f : Frontier) (c : EngineCounters) :
    runAdds parseHost (AddEvent.workerLink it :: rest) f c =
      runAdds parseHost rest (f.add parseHost it).1
        ⟨c.seedsAdded, c.engineDiscovered + 1⟩ := rfl

/-- Generalized counter inequality: provided each URL's host parses, the
frontier's discovered counter grows by at most what the seed counter and
the worker-side counter grow by together. -/
theorem runAdds_le (parseHost : String → Option String) :
    ∀ (evs : List AddEvent) (f : Frontier) (c : EngineCounters),
      (∀ e ∈ evs, (parseHost (AddEvent.item e).url).isSome = true) →
      (runAdds parseHost evs f c).1.discovered +
          c.seedsAdded + c.engineDiscovered ≤
        f.discovered + (runAdds parseHost evs f c).2.seedsAdded +
          (runAdds parseHost evs f c).2.engineDiscovered := by
  intro evs
  induction evs with
  | nil =>
    intro f c h
    simp [runAdds]
  | cons e rest ih =>
    intro f c h
    have hrest : ∀ e' ∈ rest, (parseHost (AddEvent.item e').url).isSome = true :=
      fun e' he' => h e' (List.mem_cons_of_mem e he')
    cases e with
    | seed it =>
      have he : (parseHost it.url).isSome = true :=
        h (AddEvent.seed it) (List.mem_cons_self _ _)
      have hd := add_discovered parseHost f it he
      rw [runAdds_cons_seed]
      have h2 := ih (f.add parseHost it).1
        ⟨c.seedsAdded + (if (f.add parseHost it).2 = true then 1 else 0),
          c.engineDiscovered⟩ hrest
      dsimp only at h2
      omega
    | workerLink it =>
      have he : (parseHost it.url).isSome = true :=
        h (AddEvent.workerLink it) (List.mem_cons_self _ _)
      have hd := add_discovered parseHost f it he
      have hif : (if (f.add parseHost it).2 = true then 1 else 0) ≤ 1 := by
        split <;> omega
      rw [runAdds_cons_worker]
      have h2 := ih (f.add parseHost it).1
        ⟨c.seedsAdded, c.engineDiscovered + 1⟩ hrest
      dsimp only at h2
      omega

/-- Counterexample for claim C6: a seed plus the same in-scope link
queued twice by workers. The frontier's discovered counter ends at 2
(the duplicate is rejected by the membership set) while seeds_added +
engine-side discovered is 1 + 2 = 3, so the claimed equality fails. -/
theorem counters_mismatch :
    ¬ ((runAdds (fun _ => some "t")
          [AddEvent.seed { url := "http://t/a", depth := 0, parentURL := "" },
            AddEvent.workerLink
              { url := "http://t/b", depth := 1, parentURL := "http://t/a" },
            AddEvent.workerLink
              { url := "http://t/b", depth := 1, parentURL := "http://t/a" }]
          NewFrontier ⟨0, 0⟩).1.discovered =
        (runAdds (fun _ => some "t")
          [AddEvent.seed { url := "http://t/a", depth := 0, parentURL := "" },
            AddEvent.workerLink
              { url := "http://t/b", depth := 1, parentURL := "http://t/a" },
            AddEvent.workerLink
              { url := "http://t/b", depth := 1, parentURL := "http://t/a" }]
          NewFrontier ⟨0, 0⟩).2.seedsAdded +
        (runAdds (fun _ => some "t")
          [AddEvent.seed { url := "http://t/a", depth := 0, parentURL := "" },
            AddEvent.workerLink
              { url := "http://t/b", depth := 1, parentURL := "http://t/a" },
            AddEvent.workerLink
              { url := "http://t/b", depth := 1, parentURL := "http://t/a" }]
          NewFrontier ⟨0, 0⟩).2.engineDiscovered) := by decide

/-- Claim C6 (amended): at termination the frontier's internal discovered
counter is at most the number of successful seed Adds plus the sum of the
engine-side per-worker discovered counters (equality fails exactly when a
worker queues a link the membership set has already seen, since the
engine-side counter still increments then), provided every queued URL's
host parses. -/
theorem discovered_le_engine_counters (parseHost : String → Option String)
    (evs : List AddEvent)
    (h : ∀ e ∈ evs, (parseHost (AddEvent.item e).url).isSome = true) :
    (runAdds parseHost evs NewFrontier ⟨0, 0⟩).1.discovered ≤
      (runAdds parseHost evs NewFrontier ⟨0, 0⟩).2.seedsAdded +
        (runAdds parseHost evs NewFrontier ⟨0, 0⟩).2.engineDiscovered := by
  have h2 := runAdds_le parseHost evs NewFrontier ⟨0, 0⟩ h
  simp only [NewFrontier] at h2 ⊢
  omega

/-- Witness for discovered_le_engine_counters at the seed-plus-duplicate
history. -/
theorem discovered_le_engine_counters_witness :
    (∀ e ∈ [AddEvent.seed { url := "http://t/a", depth := 0, parentURL := "" },
        AddEvent.workerLink
          { url := "http://t/b", depth := 1, parentURL := "http://t/a" },
        AddEvent.workerLink
          { url := "http://t/b", depth := 1, parentURL := "http://t/a" }],
      ((fun _ => some "t") (AddEvent.item e).url).isSome = true) ∧
    (runAdds (fun _ => some "t")
        [AddEvent.seed { url := "http://t/a", depth := 0, parentURL := "" },
          AddEvent.workerLink
            { url := "http://t/b", depth := 1, parentURL := "http://t/a" },
          AddEvent.workerLink
            { url := "http://t/b", depth := 1, parentURL := "http://t/a" }]
        NewFrontier ⟨0, 0⟩).1.discovered ≤
      (runAdds (fun _ => some "t")
        [AddEvent.seed { url := "http://t/a", depth := 0, parentURL := "" },
          AddEvent.workerLink
            { url := "http://t/b", depth := 1, parentURL := "http://t/a" },
          AddEvent.workerLink
            { url := "http://t/b", depth := 1, parentURL := "http://t/a" }]
        NewFrontier ⟨0, 0⟩).2.seedsAdded +
      (runAdds (fun _ => some "t")
        [AddEvent.seed { url := "http://t/a", depth := 0, parentURL := "" },
          AddEvent.workerLink
            { url := "http://t/b", depth := 1, parentURL := "http://t/a" },
          AddEvent.workerLink
            { url := "http://t/b", depth := 1, parentURL := "http://t/a" }]
        NewFrontier ⟨0, 0⟩).2.engineDiscovered :=
  ⟨by decide, discovered_le_engine_counters (fun _ => some "t") _ (by decide)⟩

/-- Splitting a string that starts with a separator-free chunk followed
by the separator yields that chunk and then the split of the rest. -/
theorem splitOnChar_append (c : Char) (seg rest : List Char) (h : c ∉ seg) :
    splitOnChar c (seg ++ c :: rest) = seg :: splitOnChar c rest := by
  induction seg with
  | nil => simp [splitOnChar]
  | cons x xs ih =>
    have hx : ¬ x = c := fun hh => h (hh ▸ List.mem_cons_self x xs)
    have hxs : c ∉ xs := fun hh => h (List.mem_cons_of_mem x hh)
    simp only [List.cons_append, splitOnChar, if_neg hx, List.append_eq, ih hxs]

/-- Splitting a list that does not contain the separator yields the list
as its single chunk. -/
theorem splitOnChar_single (c : Char) (l : List Char) (h : c ∉ l) :
    splitOnChar c l = [l] := by
  induction l with
  | nil => rfl
  | cons x xs ih =>
    have hx : ¬ x = c := fun hh => h (hh ▸ List.mem_cons_self x xs)
    have hxs : c ∉ xs := fun hh => h (List.mem_cons_of_mem x hh)
    simp [splitOnChar, hx, ih hxs]

/-- The split of a list never yields the empty list of chunks. -/
theorem splitOnChar_ne_nil (c : Char) (l : List Char) :
    splitOnChar c l ≠ [] := by
  cases l with
  | nil => simp [splitOnChar]
  | cons x xs =>
    by_cases hx : x = c
    · simp [splitOnChar, hx]
    · simp only [splitOnChar, if_neg hx]
      cases h : splitOnChar c xs <;> simp

/-- No chunk of a split contains the separator. -/
theorem splitOnChar_not_mem (c : Char) :
    ∀ (l : List Char) (seg : List Char), seg ∈ splitOnChar c l → c ∉ seg := by
  intro l
  induction l with
  | nil =>
    intro seg hseg
    simp [splitOnChar] at hseg
    subst hseg
    simp
  | cons x xs ih =>
    intro seg hseg
    by_cases hx : x = c
    · simp only [splitOnChar, if_pos hx] at hseg
      rcases List.mem_cons.mp hseg with h | h
      · subst h; simp
      · exact ih seg h
    · simp only [splitOnChar, if_neg hx] at hseg
      rcases hsp : splitOnChar c xs with _ | ⟨g, gs⟩
      · rw [hsp] at hseg
        simp at hseg
        subst hseg
        intro hmem
        rcases List.mem_cons.mp hmem with h2 | h2
        · exact hx h2.symm
        · simp at h2
      · rw [hsp] at hseg
        rcases List.mem_cons.mp hseg with h | h
        · subst h
          intro hmem
          rcases List.mem_cons.mp hmem with h2 | h2
          · exact hx h2.symm
          · exact ih g (by rw [hsp]; exact List.mem_cons_self g gs) h2
        · exact ih seg (by rw [hsp]; exact List.mem_cons_of_mem g h)

/-- Splitting `key ++ '=' ++ value` at the first '=' recovers key and
value when the key contains no '='. -/
theorem splitPair_append (k v : List Char) (h : '=' ∉ k) :
    splitPair (k ++ '=' :: v) = (k, v) := by
  induction k with
  | nil => simp [splitPair]
  | cons x xs ih =>
    have hx : ¬ x = '=' := fun hh => h (hh ▸ List.mem_cons_self x xs)
    have hxs : '=' ∉ xs := fun hh => h (List.mem_cons_of_mem x hh)
    simp [splitPair, hx, ih hxs]

/-- The key part of a split segment never contains '='. -/
theorem splitPair_key_no_eq (seg : List Char) : '=' ∉ (splitPair seg).1 := by
  induction seg with
  | nil => simp [splitPair]
  | cons x xs ih =>
    by_cases hx : x = '='
    · simp [splitPair, hx]
    · show '=' ∉ (if x = '=' then ([], xs) else
        ((x :: (splitPair xs).1, (splitPair xs).2) :
          List Char × List Char)).1
      rw [if_neg hx]
      intro hmem
      rcases List.mem_cons.mp hmem with h2 | h2
      · exact hx h2.symm
      · exact ih h2

/-- Both parts of a split segment are made of the segment's characters. -/
theorem splitPair_mem (seg : List Char) :
    (∀ a ∈ (splitPair seg).1, a ∈ seg) ∧ (∀ a ∈ (splitPair seg).2, a ∈ seg) := by
  induction seg with
  | nil => simp [splitPair]
  | cons x xs ih =>
    by_cases hx : x = '='
    · constructor
      · intro a ha
        simp [splitPair, hx] at ha
      · intro a ha
        have hv : (splitPair (x :: xs)).2 = xs := by simp [splitPair, hx]
        rw [hv] at ha
        exact List.mem_cons_of_mem x ha
    · constructor
      · intro a ha
        have hk : (splitPair (x :: xs)).1 = x :: (splitPair xs).1 := by
          simp [splitPair, hx]
        rw [hk] at ha
        rcases List.mem_cons.mp ha with h2 | h2
        · exact h2 ▸ List.mem_cons_self x xs
        · exact List.mem_cons_of_mem x (ih.1 a h2)
      · intro a ha
        have hv : (splitPair (x :: xs)).2 = (splitPair xs).2 := by
          simp [splitPair, hx]
        rw [hv] at ha
        exact List.mem_cons_of_mem x (ih.2 a ha)

/-- Every pair parseQuery produces is well formed. -/
theorem parseQuery_wf (q : List Char) : ∀ p ∈ parseQuery q, WellFormedPair p := by
  intro p hp
  unfold parseQuery at hp
  rcases List.mem_filterMap.mp hp with ⟨seg, hseg, hmap⟩
  dsimp only at hmap
  by_cases hkey : (splitPair seg).1 = []
  · rw [if_pos hkey] at hmap
    exact absurd hmap (by simp)
  · rw [if_neg hkey] at hmap
    have hp2 : p = splitPair seg := (Option.some.inj hmap).symm
    subst hp2
    have hamp : '&' ∉ seg := splitOnChar_not_mem '&' q seg hseg
    refine ⟨hkey, ?_, splitPair_key_no_eq seg, ?_⟩
    · intro hc
      exact hamp ((splitPair_mem seg).1 '&' hc)
    · intro hc
      exact hamp ((splitPair_mem seg).2 '&' hc)

/-- Re-parsing the encoding of well-formed pairs recovers them exactly. -/
theorem parseQuery_encodePairs (l : List (List Char × List Char))
    (h : ∀ p ∈ l, WellFormedPair p) : parseQuery (encodePairs l) = l := by
  induction l with
  | nil => rfl
  | cons p rest ih =>
    obtain ⟨hk, hak, hek, hav⟩ := h p (List.mem_cons_self p rest)
    have hna : '&' ∉ p.1 ++ '=' :: p.2 := by
      intro hmem
      rcases List.mem_append.mp hmem with h1 | h1
      · exact hak h1
      · rcases List.mem_cons.mp h1 with h2 | h2
        · exact absurd h2 (by decide)
        · exact hav h2
    cases rest with
    | nil =>
      unfold parseQuery
      rw [show encodePairs [p] = p.1 ++ '=' :: p.2 from rfl]
      rw [splitOnChar_single '&' _ hna]
      simp [splitPair_append p.1 p.2 hek, hk]
    | cons q rest2 =>
      have hrest : ∀ p' ∈ q :: rest2, WellFormedPair p' :=
        fun p' hp' => h p' (List.mem_cons_of_mem p hp')
      have hassoc : encodePairs (p :: q :: rest2) =
          (p.1 ++ '=' :: p.2) ++ '&' :: encodePairs (q :: rest2) := by
        simp [encodePairs]
      unfold parseQuery
      rw [hassoc, splitOnChar_append '&' _ _ hna]
      simp only [List.filterMap_cons]
      rw [splitPair_append p.1 p.2 hek]
      have ihq := ih hrest
      unfold parseQuery at ihq
      simp [hk, ihq]

/-- Membership in an insert comes from the new pair or the old list. -/
theorem mem_insertByKey (p x : List Char × List Char)
    (l : List (List Char × List Char)) :
    x ∈ insertByKey p l → x = p ∨ x ∈ l := by
  induction l with
  | nil =>
    intro h
    simp [insertByKey] at h
    exact Or.inl h
  | cons q rest ih =>
    intro h
    by_cases hle : keyLe p.1 q.1 = true
    · rw [insertByKey, if_pos hle] at h
      rcases List.mem_cons.mp h with h1 | h1
      · exact Or.inl h1
      · exact Or.inr h1
    · rw [insertByKey, if_neg hle] at h
      rcases List.mem_cons.mp h with h1 | h1
      · exact Or.inr (h1 ▸ List.mem_cons_self q rest)
      · rcases ih h1 with h2 | h2
        · exact Or.inl h2
        · exact Or.inr (List.mem_cons_of_mem q h2)

/-- The stable sort permutes: every sorted member was in the input. -/
theorem mem_sortPairsByKey (x : List Char × List Char) :
    ∀ (l : List (List Char × List Char)), x ∈ sortPairsByKey l → x ∈ l := by
  intro l
  induction l with
  | nil =>
    intro h
    simp [sortPairsByKey] at h
  | cons p rest ih =>
    intro h
    rcases mem_insertByKey p x _ h with h1 | h1
    · exact h1 ▸ List.mem_cons_self p rest
    · exact List.mem_cons_of_mem p (ih h1)

/-- Splitting at '?' after a question-mark-free part. -/
theorem splitAtQuery_append (pre q : List Char) (hpre : '?' ∉ pre) :
    splitAtQuery (pre ++ '?' :: q) = (pre, some q) := by
  induction pre with
  | nil => simp [splitAtQuery]
  | cons c cs ih =>
    have hc : ¬ c = '?' := fun hh => hpre (hh ▸ List.mem_cons_self c cs)
    have hcs : '?' ∉ cs := fun hh => hpre (List.mem_cons_of_mem c hh)
    simp [splitAtQuery, hc, List.append_eq, ih hcs]

/-- The encoding of a pair list is empty iff the list is. -/
theorem encodePairs_eq_nil (l : List (List Char × List Char)) :
    encodePairs l = [] ↔ l = [] := by
  cases l with
  | nil => simp [encodePairs]
  | cons p rest =>
    cases rest with
    | nil => simp [encodePairs]
    | cons q rest2 => simp [encodePairs]

/-- Counterexample for claim C5: on a URL whose two query parameters
carry no tracking keys, removeTrackingParams reorders them (url.Values
Encode emits keys in sorted order), so the original parameter order is
not preserved. -/
theorem tracking_params_reordered :
    removeTrackingParams "http://h/p?b=2&a=1" = "http://h/p?a=1&b=2" ∧
    ¬ removeTrackingParams "http://h/p?b=2&a=1" = "http://h/p?b=2&a=1" := by
  constructor
  · rfl
  · decide

/-- Claim C5 (amended): removeTrackingParams removes exactly the pairs
whose keys are among the ten listed tracking parameters (case-sensitive)
and re-encodes the survivors grouped by key in ascending byte-wise key
order (each key's values keeping their original relative order) — not in
the original overall order; the '?' is removed when no pair survives
(kept only when the original query string was itself empty), and the
re-encoded query parses back to exactly the stably-sorted surviving
pairs. -/
theorem removeTracking_characterization (pre q : List Char)
    (hpre : '?' ∉ pre) :
    (removeTrackingParams (String.mk (pre ++ '?' :: q)) =
      (if sortPairsByKey ((parseQuery q).filter keepPair) = [] then
        (if q = [] then String.mk (pre ++ ['?']) else String.mk pre)
       else
        String.mk (pre ++ '?' ::
          encodePairs (sortPairsByKey ((parseQuery q).filter keepPair))))) ∧
    parseQuery (encodePairs (sortPairsByKey ((parseQuery q).filter keepPair))) =
      sortPairsByKey ((parseQuery q).filter keepPair) ∧
    (∀ p ∈ (parseQuery q).filter keepPair,
      p.1 ∉ trackingParams.map String.data) ∧
    (∀ p ∈ parseQuery q, p.1 ∉ trackingParams.map String.data →
      p ∈ (parseQuery q).filter keepPair) := by
  refine ⟨?_, ?_, ?_, ?_⟩
  · unfold removeTrackingParams
    rw [show (String.mk (pre ++ '?' :: q)).data = pre ++ '?' :: q from rfl]
    rw [splitAtQuery_append pre q hpre]
    by_cases hs : sortPairsByKey ((parseQuery q).filter keepPair) = []
    · simp [hs, encodePairs]
    · have he : ¬ encodePairs (sortPairsByKey ((parseQuery q).filter keepPair)) = [] :=
        fun hc => hs ((encodePairs_eq_nil _).mp hc)
      simp [hs, he]
  · apply parseQuery_encodePairs
    intro p hp
    have hp' := mem_sortPairsByKey p _ hp
    exact parseQuery_wf q p (List.mem_filter.mp hp').1
  · intro p hp
    have hkeep := (List.mem_filter.mp hp).2
    unfold keepPair at hkeep
    simp only [Bool.not_eq_true', List.contains, List.elem_eq_mem,
      decide_eq_false_iff_not] at hkeep
    exact hkeep
  · intro p hp hmem
    refine List.mem_filter.mpr ⟨hp, ?_⟩
    unfold keepPair
    simp only [Bool.not_eq_true', List.contains, List.elem_eq_mem,
      decide_eq_false_iff_not]
    exact hmem

/-- Witness for removeTracking_characterization on the query
"b=2&a=1" under the prefix "http://h/p". -/
theorem removeTracking_characterization_witness :
    ('?' ∉ "http://h/p".data) ∧
    ((removeTrackingParams (String.mk ("http://h/p".data ++ '?' :: "b=2&a=1".data)) =
      (if sortPairsByKey ((parseQuery "b=2&a=1".data).filter keepPair) = [] then
        (if "b=2&a=1".data = ([] : List Char) then
          String.mk ("http://h/p".data ++ ['?'])
         else String.mk "http://h/p".data)
       else
        String.mk ("http://h/p".data ++ '?' ::
          encodePairs (sortPairsByKey
            ((parseQuery "b=2&a=1".data).filter keepPair))))) ∧
    parseQuery (encodePairs (sortPairsByKey
        ((parseQuery "b=2&a=1".data).filter keepPair))) =
      sortPairsByKey ((parseQuery "b=2&a=1".data).filter keepPair) ∧
    (∀ p ∈ (parseQuery "b=2&a=1".data).filter keepPair,
      p.1 ∉ trackingParams.map String.data) ∧
    (∀ p ∈ parseQuery "b=2&a=1".data, p.1 ∉ trackingParams.map String.data →
      p ∈ (parseQuery "b=2&a=1".data).filter keepPair)) :=
  ⟨by decide, removeTracking_characterization "http://h/p".data "b=2&a=1".data (by decide)⟩

end GoGoGo
